import Mathlib

/-!
Verification development for a two-stage tabular data pipeline:
a cleaning script (deduplication, text normalization, high-missingness
column drop, median/mode imputation) and an EDA script (IQR outlier
report, Pearson correlation matrix, group-rate aggregation, input check).

Tables are modelled column-wise.  A cell is either missing (na), a
rational number (modelling a float value), or a character list
(modelling a Python string).  Column dtype (numeric versus object) is
an explicit tag, mirroring the dtype-driven dispatch of the scripts.
Rational arithmetic stands in for float arithmetic; character-level
lowercase/uppercase/whitespace follow the ASCII conventions.
-/

/-- Character list standing for a Python string value. -/
abbrev Str := List Char

/-- Literal helper turning a Lean string into its character list. -/
def lit (s : String) : Str := s.toList

/-- Whitespace test used by str.strip. -/
def wsB (c : Char) : Bool := c.isWhitespace

/-- ASCII lowercasing of one character, modelling str.lower. -/
def charLower (c : Char) : Char :=
  if 65 ≤ c.toNat ∧ c.toNat ≤ 90 then Char.ofNat (c.toNat + 32) else c

/-- ASCII uppercasing of one character, modelling str.upper. -/
def charUpper (c : Char) : Char :=
  if 97 ≤ c.toNat ∧ c.toNat ≤ 122 then Char.ofNat (c.toNat - 32) else c

/-- Drop leading whitespace. -/
def lstrip (s : Str) : Str := s.dropWhile wsB

/-- Drop trailing whitespace. -/
def rstrip (s : Str) : Str := (s.reverse.dropWhile wsB).reverse

/-- Trim both ends, modelling str.strip. -/
def strip (s : Str) : Str := rstrip (lstrip s)

/-- Lowercase a string, modelling str.lower. -/
def lowerStr (s : Str) : Str := s.map charLower

/-- Uppercase a string, modelling str.upper. -/
def upperStr (s : Str) : Str := s.map charUpper

/-- Values held by a table cell: missing, numeric, or text. -/
inductive Cell where
  | na : Cell
  | num (q : ℚ) : Cell
  | str (s : Str) : Cell
deriving DecidableEq

/-- Missingness test for a cell, modelling isna. -/
def Cell.isNa : Cell → Bool
  | .na => true
  | _ => false

/-- Named column with its pandas dtype tag (numeric or object) and cells. -/
structure Col where
  name : Str
  isNum : Bool
  cells : List Cell
deriving DecidableEq

/-- Table as an ordered list of columns. -/
structure Table where
  cols : List Col
deriving DecidableEq

/-- Count of missing values in a column, modelling df.isna().sum() per column. -/
def naCount (c : Col) : ℕ := c.cells.countP Cell.isNa

/-- Row count of a table, read off the first column. -/
def Table.nrows (t : Table) : ℕ :=
  match t.cols with
  | [] => 0
  | c :: _ => c.cells.length

/-- Row at a given index, one optional cell per column. -/
def Table.rowAt (t : Table) (i : ℕ) : List (Option Cell) :=
  t.cols.map (fun c => c.cells.get? i)

/-- All rows of a table in order. -/
def Table.rows (t : Table) : List (List (Option Cell)) :=
  (List.range t.nrows).map t.rowAt

/-- Test that row i is the first occurrence of its value among the rows. -/
def isFirstOcc (rs : List (List (Option Cell))) (i : ℕ) : Bool :=
  match rs.get? i with
  | none => false
  | some r => decide (r ∉ rs.take i)

/-- Indices of first occurrences, the rows kept by drop_duplicates. -/
def keepIdxs (rs : List (List (Option Cell))) : List ℕ :=
  (List.range rs.length).filter (isFirstOcc rs)

/-- Select the cells at the given indices. -/
def selectIdxs (xs : List Cell) (is : List ℕ) : List Cell :=
  is.filterMap (fun i => xs.get? i)

/-- Duplicate-row removal, modelling df.drop_duplicates().reset_index(drop=True):
rows equal to an earlier row are removed, first occurrences and order kept. -/
def Table.dedup (t : Table) : Table :=
  ⟨t.cols.map (fun c => { c with cells := selectIdxs c.cells (keepIdxs t.rows) })⟩

/-- Whitespace trimming of one cell; missing cells stay missing. -/
def stripCell : Cell → Cell
  | .str s => .str (strip s)
  | x => x

/-- Per-column strip applied to object-dtype columns only, modelling
the select_dtypes(include=["object"]) loop with str.strip(). -/
def Col.stripCol (c : Col) : Col :=
  if c.isNum then c else { c with cells := c.cells.map stripCell }

/-- Lowercasing of one cell, modelling str.lower on a column. -/
def lowerCell : Cell → Cell
  | .str s => .str (lowerStr s)
  | x => x

/-- Uppercasing of one cell, modelling str.upper on a column. -/
def upperCell : Cell → Cell
  | .str s => .str (upperStr s)
  | x => x

/-- Empty-string-to-missing conversion of one cell, modelling
replace with an empty-string key mapped to pd.NA. -/
def embCell : Cell → Cell
  | .str s => if s = [] then .na else .str s
  | x => x

/-- Apply a cell transformation to every column bearing exactly the given
name, modelling the pattern of testing name membership in df.columns and
assigning the transformed column back. -/
def applyByName (n : Str) (f : Cell → Cell) (t : Table) : Table :=
  ⟨t.cols.map (fun c => if c.name = n then { c with cells := c.cells.map f } else c)⟩

/-- Name of the column lowercased by the cleaner. -/
def sexName : Str := lit "Sex"

/-- Name of the column uppercased by the cleaner. -/
def ticketName : Str := lit "Ticket"

/-- Name of the column whose empty strings become missing markers. -/
def embName : Str := lit "Embarked"

/-- Text normalization step of the cleaner: strip all object columns, then
lowercase the Sex column, uppercase the Ticket column, and convert empty
strings in the Embarked column to missing, each under an exact name match. -/
def Table.textNorm (t : Table) : Table :=
  applyByName embName embCell
    (applyByName ticketName upperCell
      (applyByName sexName lowerCell ⟨t.cols.map Col.stripCol⟩))

/-- Missing percentage of a column, modelling df.isna().mean() * 100.
A zero-row column gives 0 here; pandas gives NaN there, and a NaN never
satisfies the drop comparison below, so the drop decision agrees. -/
def missingPct (c : Col) : ℚ :=
  if c.cells.length = 0 then 0 else (naCount c : ℚ) / (c.cells.length : ℚ) * 100

/-- Column-drop step of the cleaner: drop every column whose missing
percentage exceeds 60. -/
def Table.dropHighMissing (t : Table) : Table :=
  ⟨t.cols.filter (fun c => !(decide (missingPct c > 60)))⟩

/-- Numeric values present in a list of cells, modelling dropna on a
numeric column. -/
def presentNums (cells : List Cell) : List ℚ :=
  cells.filterMap (fun x => match x with | .num q => some q | _ => none)

/-- Ascending sort of rationals. -/
def sortedQ (l : List ℚ) : List ℚ := List.insertionSort (fun a b => a ≤ b) l

/-- Median of a list of rationals as pandas computes it: middle element of
the sorted list when the length is odd, average of the two middle elements
when it is even. -/
def medianQ (l : List ℚ) : ℚ :=
  let s := sortedQ l
  let n := s.length
  if n % 2 = 1 then ((s.get? (n / 2)).getD 0)
  else (((s.get? (n / 2 - 1)).getD 0) + ((s.get? (n / 2)).getD 0)) / 2

/-- Replace every missing cell by the given fill cell, modelling fillna. -/
def fillNaWith (v : Cell) (cells : List Cell) : List Cell :=
  cells.map (fun x => if x.isNa then v else x)

/-- Median imputation of one numeric column: when missing values exist and
the median of the present values is defined, fill them with it.  When no
value is present the median is NaN and fillna with NaN changes nothing. -/
def Col.numFill (c : Col) : Col :=
  if c.cells.any Cell.isNa then
    match presentNums c.cells with
    | [] => c
    | q :: l => { c with cells := fillNaWith (.num (medianQ (q :: l))) c.cells }
  else c

/-- Text values present in a list of cells. -/
def presentStrs (cells : List Cell) : List Str :=
  cells.filterMap (fun x => match x with | .str s => some s | _ => none)

/-- Ascending lexicographic sort of strings. -/
def strSort (l : List Str) : List Str := List.insertionSort (fun a b => a ≤ b) l

/-- Largest multiplicity among the present text values. -/
def maxCnt (vs : List Str) : ℕ :=
  ((vs.dedup).map (fun v => vs.count v)).foldr max 0

/-- Distinct text values of largest multiplicity. -/
def modeCandidates (cells : List Cell) : List Str :=
  let vs := presentStrs cells
  (vs.dedup).filter (fun v => vs.count v = maxCnt vs)

/-- Mode series of a column, modelling Series.mode(dropna=True): the
distinct most frequent present values, sorted ascending. -/
def modeSorted (cells : List Cell) : List Str := strSort (modeCandidates cells)

/-- Fill value for categorical imputation: the first entry of the mode
series when it is nonempty, the Unknown placeholder otherwise. -/
def catFillValue (cells : List Cell) : Str :=
  match modeSorted cells with
  | [] => lit "Unknown"
  | m :: _ => m

/-- Mode imputation of one categorical column. -/
def Col.catFill (c : Col) : Col :=
  if c.cells.any Cell.isNa then
    { c with cells := fillNaWith (.str (catFillValue c.cells)) c.cells }
  else c

/-- Imputation step of the cleaner: median fill on numeric columns, mode
fill on the remaining columns. -/
def Table.impute (t : Table) : Table :=
  ⟨t.cols.map (fun c => if c.isNum then c.numFill else c.catFill)⟩

/-- Full cleaning transformation of the cleaner script: deduplication,
text normalization, high-missingness column drop, imputation. -/
def clean (t : Table) : Table :=
  t.dedup.textNorm.dropHighMissing.impute

/-- Match between one cell and a column dtype tag: a numeric column holds
only missing or numeric cells, an object column only missing or text cells. -/
def kindOk (b : Bool) (x : Cell) : Bool :=
  match x, b with
  | .na, _ => true
  | .num _, true => true
  | .str _, false => true
  | _, _ => false

/-- Dtype consistency of a column. -/
def Col.typeOk (c : Col) : Bool := c.cells.all (kindOk c.isNum)

/-- Dtype consistency of every column of a table. -/
def Table.TypeWf (t : Table) : Prop := ∀ c ∈ t.cols, c.typeOk = true

/-- Shape consistency: every column has the table's row count. -/
def Table.Wf (t : Table) : Prop := ∀ c ∈ t.cols, c.cells.length = t.nrows

instance (t : Table) : Decidable t.TypeWf := by unfold Table.TypeWf; infer_instance

instance (t : Table) : Decidable t.Wf := by unfold Table.Wf; infer_instance

/-- Linear-interpolation quantile as Series.quantile computes it: with the
values sorted ascending and h = q * (n - 1), the result interpolates
between the floor(h)-th and next sorted values with fraction h - floor(h). -/
def quantile (l : List ℚ) (q : ℚ) : ℚ :=
  let s := sortedQ l
  let h : ℚ := q * ((s.length : ℚ) - 1)
  let i : ℕ := (Int.floor h).toNat
  let g : ℚ := h - (i : ℚ)
  match s.get? i, s.get? (i + 1) with
  | some a, some b => a + g * (b - a)
  | some a, none => a
  | none, _ => 0

/-- Quartiles, fences and outlier count of one numeric column as the EDA
script computes them: Q1 and Q3 by linear-interpolation quantile,
IQR = Q3 - Q1, fences Q1 - 1.5 IQR and Q3 + 1.5 IQR, counting values
strictly outside the fences. -/
structure IQRReport where
  q1 : ℚ
  q3 : ℚ
  iqr : ℚ
  lower : ℚ
  upper : ℚ
  count : ℕ
deriving DecidableEq

/-- IQR outlier computation over the present values of a column. -/
def outlierStats (cells : List Cell) : IQRReport :=
  let s := presentNums cells
  let q1 := quantile s (1 / 4)
  let q3 := quantile s (3 / 4)
  let iqr := q3 - q1
  let lo := q1 - 3 / 2 * iqr
  let hi := q3 + 3 / 2 * iqr
  ⟨q1, q3, iqr, lo, hi, (s.filter (fun v => decide (v < lo) || decide (hi < v))).length⟩

/-- Outlier count of one column with the empty-column guard of the script:
a column with no present value reports zero outliers. -/
def outlierCount (cells : List Cell) : ℕ :=
  if presentNums cells = [] then 0 else (outlierStats cells).count

/-- Mean of a list of rationals. -/
def meanQ (l : List ℚ) : ℚ := l.sum / (l.length : ℚ)

/-- Sample covariance of two equally indexed value lists, with the usual
n - 1 divisor used by pandas. -/
def covQ (xs ys : List ℚ) : ℚ :=
  ((xs.zip ys).map (fun p => (p.1 - meanQ xs) * (p.2 - meanQ ys))).sum
    / ((xs.length : ℚ) - 1)

/-- Sample variance of a value list. -/
def varQ (xs : List ℚ) : ℚ := covQ xs xs

/-- Pearson correlation coefficient.  The undefined case, where either
variance vanishes (zero-variance column, or fewer than two observations),
models the NaN that pandas produces there. -/
noncomputable def pearson (xs ys : List ℚ) : Option ℝ :=
  if varQ xs = 0 ∨ varQ ys = 0 then none
  else some ((covQ xs ys : ℝ) / Real.sqrt ((varQ xs : ℝ) * (varQ ys : ℝ)))

/-- Positionally paired numeric observations of two columns, keeping rows
where both values are present, as the pairwise correlation does. -/
def pairPresent (xs ys : List Cell) : List (ℚ × ℚ) :=
  (xs.zip ys).filterMap (fun p =>
    match p.1, p.2 with
    | .num a, .num b => some (a, b)
    | _, _ => none)

/-- Correlation entry between two columns of cells. -/
noncomputable def cellCorr (xs ys : List Cell) : Option ℝ :=
  pearson ((pairPresent xs ys).map Prod.fst) ((pairPresent xs ys).map Prod.snd)

/-- Numeric-dtype columns of a table, modelling select_dtypes(include=[np.number]). -/
def numericCols (t : Table) : List Col := t.cols.filter Col.isNum

/-- Correlation matrix over the numeric columns, one row and one column
of entries per numeric table column, modelling df[num_cols].corr(). -/
noncomputable def corrMatrix (t : Table) : List (List (Option ℝ)) :=
  (numericCols t).map (fun c => (numericCols t).map (fun d => cellCorr c.cells d.cells))

/-- Correlation step of the EDA script: the matrix is produced only when at
least two numeric columns exist; otherwise the step is skipped with a
warning, modelled by the none result. -/
noncomputable def corrStep (t : Table) : Option (List (List (Option ℝ))) :=
  if 2 ≤ (numericCols t).length then some (corrMatrix t) else none

/-- Entry of a matrix of optional values at row i, column j; none when the
indices fall outside the matrix. -/
def entry? (m : List (List (Option ℝ))) (i j : ℕ) : Option (Option ℝ) :=
  (m.get? i).bind (fun r => r.get? j)

/-- Case-insensitive column lookup of the EDA script: the first column
whose lowercased name equals the lowercased target, if any. -/
def colname (t : Table) (target : Str) : Option Str :=
  (t.cols.find? (fun c => decide (lowerStr c.name = lowerStr target))).map Col.name

/-- Cells of the first column bearing exactly the given name. -/
def cellsOf (t : Table) (n : Str) : List Cell :=
  match t.cols.find? (fun c => decide (c.name = n)) with
  | some c => c.cells
  | none => []

/-- Numeric coercion of one cell, modelling pd.to_numeric(errors="coerce")
restricted to the value forms the analysed data exhibits: numeric cells
pass through, missing cells stay missing, and text cells parse as optionally
signed integer literals or become missing. -/
def coerceNum (x : Cell) : Cell :=
  match x with
  | .num q => .num q
  | .na => .na
  | .str s =>
    match s with
    | [] => .na
    | c :: cs =>
      let digits := fun (l : List Char) => l ≠ [] ∧ l.all Char.isDigit
      let toVal := fun (l : List Char) =>
        (l.foldl (fun a d => a * 10 + (d.toNat - 48)) 0 : ℕ)
      if c = Char.ofNat 45 ∧ digits cs then .num (-(toVal cs : ℚ))
      else if digits (c :: cs) then .num ((toVal (c :: cs) : ℚ))
      else .na

/-- Mean outcome of the rows whose key cell equals the given key, skipping
missing outcomes, as the groupby mean does; none when no outcome remains. -/
def groupMean (pairs : List (Cell × Cell)) (k : Cell) : Option ℚ :=
  let vs := pairs.filterMap (fun p =>
    if p.1 = k then (match p.2 with | .num q => some q | _ => none) else none)
  match vs with
  | [] => none
  | _ => some (vs.sum / (vs.length : ℚ))

/-- Ordering used to present group rates: descending by rate with undefined
rates last, modelling sort_values(ascending=False). -/
def rateGe (x y : Cell × Option ℚ) : Bool :=
  match x.2, y.2 with
  | some a, some b => decide (b ≤ a)
  | some _, none => true
  | none, some _ => false
  | none, none => true

/-- Ascending order on cells used for the sorted distinct group keys. -/
def cellLe (x y : Cell) : Bool :=
  match x, y with
  | .na, _ => true
  | .num _, .na => false
  | .num a, .num b => decide (a ≤ b)
  | .num _, .str _ => true
  | .str a, .str b => decide (a ≤ b)
  | .str _, _ => false

/-- Rate-by-group aggregation of the EDA script: group rows by the distinct
present key values (groupby sorts its keys ascending and drops missing
keys), take the mean outcome of each group, and sort the result descending
by rate. -/
def rateByGroup (keys vals : List Cell) : List (Cell × Option ℚ) :=
  let pairs := keys.zip vals
  let ks := List.insertionSort (fun a b => cellLe a b = true)
    ((keys.filter (fun k => !(k.isNa))).dedup)
  List.insertionSort (fun a b => rateGe a b = true)
    (ks.map (fun k => (k, groupMean pairs k)))

/-- Survival-rate-by-sex step of the EDA script: found via case-insensitive
lookup of both column names, the outcome column is numerically coerced and
aggregated by the key column; a missing column name skips the step with a
warning, modelled by the none result. -/
def survStep (t : Table) : Option (List (Cell × Option ℚ)) :=
  match colname t (lit "sex"), colname t (lit "survived") with
  | some sc, some vc =>
    some (rateByGroup (cellsOf t sc) ((cellsOf t vc).map coerceNum))
  | _, _ => none

/-- Name of the file the EDA script requires. -/
def inputFile : Str := lit "titanic_cleaned.csv"

/-- Single-quote character. -/
def sqChar : Char := Char.ofNat 39

/-- Error message raised when the input file is absent, naming the file. -/
def missingMsg : Str :=
  lit "❌ " ++ [sqChar] ++ inputFile ++ [sqChar]
    ++ lit " not found. Make sure it is in the same folder as this script."

/-- Names of the report artifacts the EDA script can write. -/
def edaArtifacts : List Str :=
  [lit "basic_stats_numeric.csv", lit "outlier_report_iqr.csv",
   lit "correlation_matrix.csv", lit "survival_rate_by_sex.csv",
   lit "survival_rate_by_age_bins.csv"]

/-- Entry gate of the EDA script as a function of input-file existence:
when the file is absent the run aborts at once with the message naming it,
before any artifact is produced; when it exists the run proceeds. -/
def edaRun (fsExists : Bool) : Except Str (List Str) :=
  if fsExists then .ok edaArtifacts else .error missingMsg

/-- Per-column action of the text normalization step, the fusion of its
four column maps. -/
def normColF (c : Col) : Col :=
  let c1 := c.stripCol
  let c2 := if c1.name = sexName then { c1 with cells := c1.cells.map lowerCell } else c1
  let c3 := if c2.name = ticketName then { c2 with cells := c2.cells.map upperCell } else c2
  if c3.name = embName then { c3 with cells := c3.cells.map embCell } else c3

/-- Shape of the values a column can hold after text normalization: string
values are trim-fixed, and fixed under the designated by-name transformation
when the column bears a designated name. -/
def normFixed (n : Str) (x : Cell) : Prop :=
  ∀ s, x = Cell.str s →
    strip s = s ∧ (n = sexName → lowerStr s = s) ∧
    (n = ticketName → upperStr s = s) ∧ (n = embName → s ≠ [])

/-- Column whose every cell satisfies the normalization invariant. -/
def Col.Normed (c : Col) : Prop := ∀ x ∈ c.cells, normFixed c.name x

/-- Numeric column of the outlier test scenario of the specification. -/
def cTitanic : List Cell :=
  [.num 1, .num 2, .num 2, .num 3, .num 3, .num 3, .num 4, .num 4, .num 5, .num 100]

/-- Table of the rate-by-sex aggregation scenario of the specification. -/
def tSurv : Table :=
  ⟨[⟨lit "sex", false,
      [.str (lit "male"), .str (lit "male"), .str (lit "female"), .str (lit "female")]⟩,
    ⟨lit "survived", true, [.num 0, .num 1, .num 1, .num 1]⟩]⟩

/-- One-column table whose missing value makes two rows collide after
imputation: the median fill turns the rows into duplicates. -/
def tDup : Table := ⟨[⟨lit "a", true, [.num 1, .na]⟩]⟩

/-- Small numeric table that cleaning leaves unchanged. -/
def tWit : Table := ⟨[⟨lit "a", true, [.num 1, .num 2]⟩]⟩

/-- Numeric column with 7 of 10 values missing. -/
def col7ex : Col :=
  ⟨lit "c7", true, [.na, .na, .na, .na, .na, .na, .na, .num 1, .num 2, .num 3]⟩

/-- Numeric column with 6 of 10 values missing. -/
def col6ex : Col :=
  ⟨lit "c6", true, [.na, .na, .na, .na, .na, .na, .num 1, .num 2, .num 3, .num 4]⟩

/-- Identifier column making all ten rows distinct. -/
def colIdx : Col :=
  ⟨lit "id", true, [.num 1, .num 2, .num 3, .num 4, .num 5,
    .num 6, .num 7, .num 8, .num 9, .num 10]⟩

/-- Ten-row table carrying the 70 percent and 60 percent missing columns. -/
def tC3ex : Table := ⟨[colIdx, col7ex, col6ex]⟩

/-- Table whose sex column bears a lowercase name, differing from the
designated name only in letter case. -/
def tSexLower : Table := ⟨[⟨lit "sex", false, [.str (lit "MALE")]⟩]⟩

/-- Table with a column named exactly as the designated lowercased column. -/
def tHdr : Table := ⟨[⟨lit "Sex", false, [.str (lit " MALE ")]⟩]⟩

/-- Two numeric columns, the first constant. -/
def tConst : Table :=
  ⟨[⟨lit "a", true, [.num 1, .num 1]⟩, ⟨lit "b", true, [.num 1, .num 2]⟩]⟩

/-- Two numeric columns of nonzero variance. -/
def tVar : Table :=
  ⟨[⟨lit "a", true, [.num 1, .num 2]⟩, ⟨lit "b", true, [.num 2, .num 1]⟩]⟩

/-- Table with no columns at all. -/
def tNoCols : Table := ⟨[]⟩

/-- Zero-row table with two columns. -/
def tEmpty : Table := ⟨[⟨lit "a", true, []⟩, ⟨lit "b", false, []⟩]⟩

/-- Cell list with two values tied for most frequent. -/
def cellsTie : List Cell :=
  [.str (lit "b"), .str (lit "a"), .na, .str (lit "a"), .str (lit "b")]

attribute [local semireducible] Rat.mul Rat.inv Rat.add Rat.sub Rat.ofScientific

theorem charOfNat_toNat {n : ℕ} (h : n < 55296) : (Char.ofNat n).toNat = n := by
  have hv : n.isValidChar := Or.inl h
  rw [Char.ofNat, dif_pos hv]
  simp [Char.ofNatAux, Char.toNat, UInt32.toNat]

theorem char_eq_iff_toNat (a b : Char) : a = b ↔ a.toNat = b.toNat := by
  rw [Char.ext_iff]
  constructor
  · intro h; rw [Char.toNat, Char.toNat, h]
  · intro h; exact UInt32.ext h

theorem charLower_of_not {c : Char} (h : ¬(65 ≤ c.toNat ∧ c.toNat ≤ 90)) :
    charLower c = c := if_neg h

theorem charLower_toNat (c : Char) :
    (charLower c).toNat = if 65 ≤ c.toNat ∧ c.toNat ≤ 90 then c.toNat + 32 else c.toNat := by
  by_cases h : 65 ≤ c.toNat ∧ c.toNat ≤ 90
  · rw [if_pos h]
    unfold charLower
    rw [if_pos h]
    exact charOfNat_toNat (by omega)
  · rw [if_neg h, charLower_of_not h]

theorem charLower_idem (c : Char) : charLower (charLower c) = charLower c := by
  apply charLower_of_not
  have h := charLower_toNat c
  by_cases hc : 65 ≤ c.toNat ∧ c.toNat ≤ 90
  · rw [if_pos hc] at h; omega
  · rw [if_neg hc] at h; omega

theorem charUpper_of_not {c : Char} (h : ¬(97 ≤ c.toNat ∧ c.toNat ≤ 122)) :
    charUpper c = c := if_neg h

theorem charUpper_toNat (c : Char) :
    (charUpper c).toNat = if 97 ≤ c.toNat ∧ c.toNat ≤ 122 then c.toNat - 32 else c.toNat := by
  by_cases h : 97 ≤ c.toNat ∧ c.toNat ≤ 122
  · rw [if_pos h]
    unfold charUpper
    rw [if_pos h]
    exact charOfNat_toNat (by omega)
  · rw [if_neg h, charUpper_of_not h]

theorem charUpper_idem (c : Char) : charUpper (charUpper c) = charUpper c := by
  apply charUpper_of_not
  have h := charUpper_toNat c
  by_cases hc : 97 ≤ c.toNat ∧ c.toNat ≤ 122
  · rw [if_pos hc] at h; omega
  · rw [if_neg hc] at h; omega

theorem wsB_iff (c : Char) :
    wsB c = true ↔ (c.toNat = 32 ∨ c.toNat = 9 ∨ c.toNat = 13 ∨ c.toNat = 10) := by
  unfold wsB Char.isWhitespace
  simp only [Bool.or_eq_true, decide_eq_true_eq, char_eq_iff_toNat]
  have h1 : (' ').toNat = 32 := rfl
  have h2 : ('\t').toNat = 9 := rfl
  have h3 : ('\x0d').toNat = 13 := rfl
  have h4 : ('\n').toNat = 10 := rfl
  rw [h1, h2, h3, h4]
  tauto

theorem wsB_charLower (c : Char) : wsB (charLower c) = wsB c := by
  rw [Bool.eq_iff_iff, wsB_iff, wsB_iff, charLower_toNat]
  by_cases hc : 65 ≤ c.toNat ∧ c.toNat ≤ 90
  · rw [if_pos hc]; omega
  · rw [if_neg hc]

theorem wsB_charUpper (c : Char) : wsB (charUpper c) = wsB c := by
  rw [Bool.eq_iff_iff, wsB_iff, wsB_iff, charUpper_toNat]
  by_cases hc : 97 ≤ c.toNat ∧ c.toNat ≤ 122
  · rw [if_pos hc]; omega
  · rw [if_neg hc]

theorem dropWhile_dropWhile (p : Char → Bool) (l : List Char) :
    (l.dropWhile p).dropWhile p = l.dropWhile p := by
  induction l with
  | nil => rfl
  | cons a t ih =>
    by_cases h : p a
    · simp [List.dropWhile_cons, h, ih]
    · simp [List.dropWhile_cons, h]

theorem lstrip_idem (s : Str) : lstrip (lstrip s) = lstrip s :=
  dropWhile_dropWhile wsB s

theorem rstrip_idem (s : Str) : rstrip (rstrip s) = rstrip s := by
  unfold rstrip
  rw [List.reverse_reverse, dropWhile_dropWhile]

theorem rstrip_prefix (s : Str) : rstrip s <+: s := by
  have h : rstrip s <+: s.reverse.reverse := by
    unfold rstrip
    exact List.reverse_prefix.mpr (List.dropWhile_suffix wsB)
  rwa [List.reverse_reverse] at h

theorem head_not_ws_lstrip (s : Str) :
    lstrip s = [] ∨ ∃ a t, lstrip s = a :: t ∧ wsB a = false := by
  induction s with
  | nil => exact Or.inl rfl
  | cons a t ih =>
    by_cases h : wsB a
    · simpa only [lstrip, List.dropWhile_cons, h, if_true] using ih
    · right
      refine ⟨a, t, ?_, by simpa using h⟩
      simp [lstrip, List.dropWhile_cons, h]

theorem dropWhile_eq_self_of_head {p : Char → Bool} {l : List Char}
    (h : l = [] ∨ ∃ a t, l = a :: t ∧ p a = false) : l.dropWhile p = l := by
  rcases h with rfl | ⟨a, t, rfl, ha⟩
  · rfl
  · simp [List.dropWhile_cons, ha]

theorem headok_rstrip {u : Str} (h : u = [] ∨ ∃ a t, u = a :: t ∧ wsB a = false) :
    rstrip u = [] ∨ ∃ a t, rstrip u = a :: t ∧ wsB a = false := by
  rcases h with rfl | ⟨a, t, rfl, ha⟩
  · exact Or.inl rfl
  · rcases hr : rstrip (a :: t) with _ | ⟨b, t2⟩
    · exact Or.inl rfl
    · right
      refine ⟨b, t2, rfl, ?_⟩
      have hp : rstrip (a :: t) <+: a :: t := rstrip_prefix _
      rw [hr] at hp
      rcases hp with ⟨t3, ht3⟩
      rw [List.cons_append] at ht3
      injection ht3 with hb _
      rw [hb]
      exact ha

theorem lstrip_eq_self_of_headok {u : Str}
    (h : u = [] ∨ ∃ a t, u = a :: t ∧ wsB a = false) : lstrip u = u :=
  dropWhile_eq_self_of_head h

theorem strip_idem (s : Str) : strip (strip s) = strip s := by
  unfold strip
  rw [lstrip_eq_self_of_headok (headok_rstrip (head_not_ws_lstrip s)), rstrip_idem]

theorem lstrip_map {f : Char → Char} (hf : ∀ c, wsB (f c) = wsB c) (s : Str) :
    lstrip (s.map f) = (lstrip s).map f := by
  have hcomp : wsB ∘ f = wsB := funext hf
  unfold lstrip
  rw [List.dropWhile_map, hcomp]

theorem rstrip_map {f : Char → Char} (hf : ∀ c, wsB (f c) = wsB c) (s : Str) :
    rstrip (s.map f) = (rstrip s).map f := by
  have hcomp : wsB ∘ f = wsB := funext hf
  unfold rstrip
  rw [← List.map_reverse, List.dropWhile_map, List.map_reverse, hcomp]

theorem strip_map {f : Char → Char} (hf : ∀ c, wsB (f c) = wsB c) (s : Str) :
    strip (s.map f) = (strip s).map f := by
  unfold strip
  rw [lstrip_map hf, rstrip_map hf]

theorem strip_lowerStr (s : Str) : strip (lowerStr s) = lowerStr (strip s) :=
  strip_map wsB_charLower s

theorem strip_upperStr (s : Str) : strip (upperStr s) = upperStr (strip s) :=
  strip_map wsB_charUpper s

theorem lowerStr_idem (s : Str) : lowerStr (lowerStr s) = lowerStr s := by
  unfold lowerStr
  rw [List.map_map]
  exact List.map_congr_left (fun a _ => charLower_idem a)

theorem upperStr_idem (s : Str) : upperStr (upperStr s) = upperStr s := by
  unfold upperStr
  rw [List.map_map]
  exact List.map_congr_left (fun a _ => charUpper_idem a)

theorem foldr_max_mem (l : List ℕ) (h : l ≠ []) : l.foldr max 0 ∈ l := by
  induction l with
  | nil => cases h rfl
  | cons a t ih =>
    rcases eq_or_ne t [] with rfl | ht
    · simp
    · rw [List.foldr_cons]
      rcases Nat.le_total a (t.foldr max 0) with h1 | h1
      · rw [Nat.max_eq_right h1]
        exact List.mem_cons_of_mem a (ih ht)
      · rw [Nat.max_eq_left h1]
        exact List.mem_cons_self a t

theorem selectIdxs_range (xs : List Cell) :
    selectIdxs xs (List.range xs.length) = xs := by
  unfold selectIdxs
  induction xs with
  | nil => rfl
  | cons a t ih =>
    rw [List.length_cons, List.range_succ_eq_map, List.filterMap_cons, List.filterMap_map]
    simp only [List.get?]
    exact congrArg (a :: ·) ih

theorem selectIdxs_mem {xs : List Cell} {is : List ℕ} {x : Cell}
    (h : x ∈ selectIdxs xs is) : x ∈ xs := by
  unfold selectIdxs at h
  rcases List.mem_filterMap.mp h with ⟨i, _, hget⟩
  exact List.get?_mem hget

theorem selectIdxs_length {xs : List Cell} {is : List ℕ} {n : ℕ}
    (hn : xs.length = n) (his : ∀ i ∈ is, i < n) :
    (selectIdxs xs is).length = is.length := by
  unfold selectIdxs
  induction is with
  | nil => rfl
  | cons i t ih =>
    rw [List.filterMap_cons]
    obtain ⟨x, hx⟩ : ∃ x, xs.get? i = some x := by
      cases hg : xs.get? i
      · exfalso
        have := List.get?_eq_none.mp hg
        have hi := his i (List.mem_cons_self i t)
        omega
      · exact ⟨_, rfl⟩
    rw [hx, List.length_cons]
    rw [ih (fun j hj => his j (List.mem_cons_of_mem i hj))]
    rw [List.length_cons]

theorem keepIdxs_lt {rs : List (List (Option Cell))} {i : ℕ}
    (h : i ∈ keepIdxs rs) : i < rs.length := by
  unfold keepIdxs at h
  exact List.mem_range.mp (List.mem_filter.mp h).1

theorem keepIdxs_of_nodup {rs : List (List (Option Cell))} (h : rs.Nodup) :
    keepIdxs rs = List.range rs.length := by
  unfold keepIdxs
  apply List.filter_eq_self.mpr
  intro i hi
  rw [List.mem_range] at hi
  unfold isFirstOcc
  obtain ⟨r, hr⟩ : ∃ r, rs.get? i = some r := by
    cases hg : rs.get? i
    · exfalso
      have := List.get?_eq_none.mp hg
      omega
    · exact ⟨_, rfl⟩
  rw [hr]
  rw [decide_eq_true_eq]
  intro hmem
  have hd : List.Disjoint (rs.take i) (rs.drop i) := by
    apply List.disjoint_of_nodup_append
    rw [List.take_append_drop]
    exact h
  have hr2 : r ∈ rs.drop i := by
    have hg : (rs.drop i).get? 0 = some r := by
      rw [List.get?_drop, Nat.add_zero]
      exact hr
    exact List.get?_mem hg
  exact hd hmem hr2

theorem rows_length (t : Table) : t.rows.length = t.nrows := by
  unfold Table.rows
  rw [List.length_map, List.length_range]

theorem map_eq_self_of_id {α : Type} {l : List α} {f : α → α}
    (h : ∀ a ∈ l, f a = a) : l.map f = l := by
  conv_rhs => rw [← List.map_id l]
  exact List.map_congr_left h

theorem dedup_eq_self_of_nodup {t : Table} (hw : t.Wf) (h : t.rows.Nodup) :
    t.dedup = t := by
  unfold Table.dedup
  rw [keepIdxs_of_nodup h, rows_length]
  have hcols : t.cols.map
      (fun c => { c with cells := selectIdxs c.cells (List.range t.nrows) }) = t.cols := by
    apply map_eq_self_of_id
    intro c hc
    have hlen : c.cells.length = t.nrows := hw c hc
    show ({ c with cells := selectIdxs c.cells (List.range t.nrows) } : Col) = c
    rw [← hlen, selectIdxs_range]
  rw [hcols]

theorem presentStrs_mem {cells : List Cell} {s : Str} :
    s ∈ presentStrs cells ↔ Cell.str s ∈ cells := by
  unfold presentStrs
  rw [List.mem_filterMap]
  constructor
  · rintro ⟨x, hx, hs⟩
    cases x with
    | na => cases hs
    | num q => cases hs
    | str s2 => cases hs; exact hx
  · intro h
    exact ⟨Cell.str s, h, rfl⟩

theorem maxCnt_attained {cells : List Str} (h : cells ≠ []) :
    ∃ v ∈ cells.dedup, cells.count v = maxCnt cells := by
  unfold maxCnt
  have hd : cells.dedup ≠ [] := by
    intro hnil
    exact h ((List.dedup_eq_nil cells).mp hnil)
  have hm : (cells.dedup.map (fun v => cells.count v)).foldr max 0
      ∈ cells.dedup.map (fun v => cells.count v) := by
    apply foldr_max_mem
    intro hnil
    exact hd (List.map_eq_nil.mp hnil)
  rcases List.mem_map.mp hm with ⟨v, hv, hc⟩
  exact ⟨v, hv, hc⟩

theorem modeCandidates_ne_nil {cells : List Cell} (h : presentStrs cells ≠ []) :
    modeCandidates cells ≠ [] := by
  unfold modeCandidates
  rcases maxCnt_attained h with ⟨v, hv, hc⟩
  intro hnil
  have : v ∈ ([] : List Str) := by
    rw [← hnil]
    exact List.mem_filter.mpr ⟨hv, by rw [decide_eq_true_eq]; exact hc⟩
  cases this

theorem modeSorted_perm (cells : List Cell) :
    (modeSorted cells).Perm (modeCandidates cells) := by
  unfold modeSorted strSort
  exact List.perm_insertionSort _ _

theorem catFillValue_mem {cells : List Cell}
    (h : presentStrs cells ≠ []) : catFillValue cells ∈ presentStrs cells := by
  have hlen : (modeSorted cells).length = (modeCandidates cells).length :=
    (modeSorted_perm cells).length_eq
  have hne : modeSorted cells ≠ [] := by
    intro hnil
    apply modeCandidates_ne_nil h
    rw [hnil] at hlen
    exact (List.length_eq_zero.mp hlen.symm)
  rcases hms : modeSorted cells with _ | ⟨m, rest⟩
  · cases hne hms
  · have hmem : m ∈ modeCandidates cells :=
      (modeSorted_perm cells).subset (by rw [hms]; exact List.mem_cons_self m rest)
    have hdd : m ∈ (presentStrs cells).dedup := by
      unfold modeCandidates at hmem
      exact (List.mem_filter.mp hmem).1
    have hp : m ∈ presentStrs cells := List.mem_dedup.mp hdd
    unfold catFillValue
    rw [hms]
    exact hp

theorem textNorm_eq_map (t : Table) : t.textNorm = ⟨t.cols.map normColF⟩ := by
  cases t with | mk cols =>
  unfold Table.textNorm applyByName normColF
  simp only [List.map_map]
  rfl

theorem stripCol_name (c : Col) : c.stripCol.name = c.name := by
  unfold Col.stripCol
  split <;> rfl

theorem stripCol_isNum (c : Col) : c.stripCol.isNum = c.isNum := by
  unfold Col.stripCol
  split <;> rfl

theorem normColF_name (c : Col) : (normColF c).name = c.name := by
  simp only [normColF]
  split <;> split <;> split <;> simp [stripCol_name]

theorem normColF_isNum (c : Col) : (normColF c).isNum = c.isNum := by
  simp only [normColF]
  split <;> split <;> split <;> simp [stripCol_isNum]

theorem normFixed_of_not_str {n : Str} {x : Cell}
    (h : ∀ s, x ≠ Cell.str s) : normFixed n x :=
  fun s hs => absurd hs (h s)

theorem sexName_ne_ticketName : sexName ≠ ticketName := by decide

theorem sexName_ne_embName : sexName ≠ embName := by decide

theorem ticketName_ne_embName : ticketName ≠ embName := by decide

theorem typeOk_num_cases {c : Col} (hn : c.isNum = true) (h : c.typeOk = true) :
    ∀ x ∈ c.cells, x = Cell.na ∨ ∃ q, x = Cell.num q := by
  intro x hx
  have hp := List.all_eq_true.mp h x hx
  cases x with
  | na => exact Or.inl rfl
  | num q => exact Or.inr ⟨q, rfl⟩
  | str s =>
    exfalso
    rw [hn] at hp
    simp [kindOk] at hp

theorem typeOk_obj_cases {c : Col} (hn : c.isNum = false) (h : c.typeOk = true) :
    ∀ x ∈ c.cells, x = Cell.na ∨ ∃ s, x = Cell.str s := by
  intro x hx
  have hp := List.all_eq_true.mp h x hx
  cases x with
  | na => exact Or.inl rfl
  | num q =>
    exfalso
    rw [hn] at hp
    simp [kindOk] at hp
  | str s => exact Or.inr ⟨s, rfl⟩

theorem normColF_eq_of_num {c : Col} (hn : c.isNum = true) (h : c.typeOk = true) :
    normColF c = c := by
  have hid : ∀ f : Cell → Cell, f Cell.na = Cell.na → (∀ q, f (Cell.num q) = Cell.num q) →
      c.cells.map f = c.cells := by
    intro f h1 h2
    conv_rhs => rw [← List.map_id c.cells]
    apply List.map_congr_left
    intro x hx
    rcases typeOk_num_cases hn h x hx with rfl | ⟨q, rfl⟩
    · exact h1
    · exact h2 q
  have hs : c.stripCol = c := by
    unfold Col.stripCol
    rw [if_pos hn]
  obtain ⟨nm, bn, cl⟩ := c
  simp only [normColF, hs]
  by_cases h1 : nm = sexName <;> by_cases h2 : nm = ticketName <;>
    by_cases h3 : nm = embName <;>
      simp_all [hid lowerCell rfl (fun _ => rfl),
        hid upperCell rfl (fun _ => rfl), hid embCell rfl (fun _ => rfl)]

theorem normColF_cells_obj {c : Col} (hn : c.isNum = false) :
    (normColF c).cells =
      if c.name = sexName then c.cells.map (fun x => lowerCell (stripCell x))
      else if c.name = ticketName then c.cells.map (fun x => upperCell (stripCell x))
      else if c.name = embName then c.cells.map (fun x => embCell (stripCell x))
      else c.cells.map stripCell := by
  have hs : c.stripCol = { c with cells := c.cells.map stripCell } := by
    unfold Col.stripCol
    rw [if_neg (by rw [hn]; exact Bool.false_ne_true)]
  simp only [normColF, hs]
  by_cases h1 : c.name = sexName
  · have h2 : ¬ c.name = ticketName := by rw [h1]; exact sexName_ne_ticketName
    have h3 : ¬ c.name = embName := by rw [h1]; exact sexName_ne_embName
    simp [h1, h2, h3, List.map_map, Function.comp, sexName_ne_ticketName,
      sexName_ne_embName, ticketName_ne_embName, Ne.symm sexName_ne_ticketName,
      Ne.symm sexName_ne_embName, Ne.symm ticketName_ne_embName]
  · by_cases h2 : c.name = ticketName
    · have h3 : ¬ c.name = embName := by rw [h2]; exact ticketName_ne_embName
      simp [h1, h2, h3, List.map_map, Function.comp, sexName_ne_ticketName,
        sexName_ne_embName, ticketName_ne_embName, Ne.symm sexName_ne_ticketName,
        Ne.symm sexName_ne_embName, Ne.symm ticketName_ne_embName]
    · by_cases h3 : c.name = embName
      · simp [h1, h2, h3, List.map_map, Function.comp, sexName_ne_ticketName,
          sexName_ne_embName, ticketName_ne_embName, Ne.symm sexName_ne_ticketName,
          Ne.symm sexName_ne_embName, Ne.symm ticketName_ne_embName]
      · simp [h1, h2, h3]

theorem normFixed_strip_only {n : Str} (hs1 : n ≠ sexName) (hs2 : n ≠ ticketName)
    (hs3 : n ≠ embName) {x : Cell} : normFixed n (stripCell x) := by
  cases x with
  | na => exact normFixed_of_not_str (fun s hs => by cases hs)
  | num q => exact normFixed_of_not_str (fun s hs => by cases hs)
  | str s0 =>
    intro s hs
    have : s = strip s0 := by
      simp only [stripCell] at hs
      cases hs
      rfl
    subst this
    exact ⟨strip_idem s0, fun h => absurd h hs1, fun h => absurd h hs2, fun h => absurd h hs3⟩

theorem normColF_normed (c : Col) (h : c.typeOk = true) : (normColF c).Normed := by
  by_cases hn : c.isNum
  · rw [normColF_eq_of_num hn h]
    intro x hx
    apply normFixed_of_not_str
    intro s hs
    rcases typeOk_num_cases hn h x hx with rfl | ⟨q, rfl⟩ <;> cases hs
  · intro x hx
    rw [normColF_name]
    rw [normColF_cells_obj (Bool.not_eq_true c.isNum ▸ hn)] at hx
    by_cases h1 : c.name = sexName
    · rw [if_pos h1] at hx
      rcases List.mem_map.mp hx with ⟨y, hy, rfl⟩
      cases y with
      | na => exact normFixed_of_not_str (fun s hs => by cases hs)
      | num q => exact normFixed_of_not_str (fun s hs => by cases hs)
      | str s0 =>
        intro s hs
        have : s = lowerStr (strip s0) := by
          simp only [stripCell, lowerCell] at hs
          cases hs
          rfl
        subst this
        refine ⟨?_, fun _ => lowerStr_idem _, ?_, ?_⟩
        · rw [strip_lowerStr, strip_idem]
        · intro h2
          exact absurd (h1.symm.trans h2) sexName_ne_ticketName
        · intro h3
          exact absurd (h1.symm.trans h3) sexName_ne_embName
    · rw [if_neg h1] at hx
      by_cases h2 : c.name = ticketName
      · rw [if_pos h2] at hx
        rcases List.mem_map.mp hx with ⟨y, hy, rfl⟩
        cases y with
        | na => exact normFixed_of_not_str (fun s hs => by cases hs)
        | num q => exact normFixed_of_not_str (fun s hs => by cases hs)
        | str s0 =>
          intro s hs
          have : s = upperStr (strip s0) := by
            simp only [stripCell, upperCell] at hs
            cases hs
            rfl
          subst this
          refine ⟨?_, ?_, fun _ => upperStr_idem _, ?_⟩
          · rw [strip_upperStr, strip_idem]
          · intro h1b
            exact absurd (h2.symm.trans h1b) (Ne.symm sexName_ne_ticketName)
          · intro h3
            exact absurd (h2.symm.trans h3) ticketName_ne_embName
      · rw [if_neg h2] at hx
        by_cases h3 : c.name = embName
        · rw [if_pos h3] at hx
          rcases List.mem_map.mp hx with ⟨y, hy, rfl⟩
          cases y with
          | na => exact normFixed_of_not_str (fun s hs => by cases hs)
          | num q => exact normFixed_of_not_str (fun s hs => by cases hs)
          | str s0 =>
            intro s hs
            by_cases hnil : strip s0 = []
            · exfalso
              simp only [stripCell, embCell, hnil, if_pos] at hs
              cases hs
            · have : s = strip s0 := by
                simp only [stripCell, embCell, hnil, if_neg] at hs
                cases hs
                rfl
              subst this
              refine ⟨strip_idem s0, ?_, ?_, fun _ => hnil⟩
              · intro h1b
                exact absurd (h3.symm.trans h1b) (Ne.symm sexName_ne_embName)
              · intro h2b
                exact absurd (h3.symm.trans h2b) (Ne.symm ticketName_ne_embName)
        · rw [if_neg h3] at hx
          rcases List.mem_map.mp hx with ⟨y, hy, rfl⟩
          exact normFixed_strip_only h1 h2 h3

theorem textNorm_normed {t : Table} (h : t.TypeWf) :
    ∀ c ∈ t.textNorm.cols, c.Normed := by
  rw [textNorm_eq_map]
  intro c hc
  rcases List.mem_map.mp hc with ⟨c0, hc0, rfl⟩
  exact normColF_normed c0 (h c0 hc0)

theorem normColF_eq_of_normed {c : Col} (h : c.Normed) : normColF c = c := by
  have hstrip : c.cells.map stripCell = c.cells := by
    conv_rhs => rw [← List.map_id c.cells]
    apply List.map_congr_left
    intro x hx
    cases x with
    | na => rfl
    | num q => rfl
    | str s => simp only [stripCell, (h _ hx s rfl).1, id]
  have hscol : c.stripCol = c := by
    unfold Col.stripCol
    split
    · rfl
    · rw [hstrip]
  have hlow : c.name = sexName → c.cells.map lowerCell = c.cells := by
    intro hn
    conv_rhs => rw [← List.map_id c.cells]
    apply List.map_congr_left
    intro x hx
    cases x with
    | na => rfl
    | num q => rfl
    | str s => simp only [lowerCell, (h _ hx s rfl).2.1 hn, id]
  have hup : c.name = ticketName → c.cells.map upperCell = c.cells := by
    intro hn
    conv_rhs => rw [← List.map_id c.cells]
    apply List.map_congr_left
    intro x hx
    cases x with
    | na => rfl
    | num q => rfl
    | str s => simp only [upperCell, (h _ hx s rfl).2.2.1 hn, id]
  have hemb : c.name = embName → c.cells.map embCell = c.cells := by
    intro hn
    conv_rhs => rw [← List.map_id c.cells]
    apply List.map_congr_left
    intro x hx
    cases x with
    | na => rfl
    | num q => rfl
    | str s =>
      simp only [embCell, if_neg ((h _ hx s rfl).2.2.2 hn), id]
  simp only [normColF, hscol]
  by_cases h1 : c.name = sexName
  · rw [if_pos h1, hlow h1]
    by_cases h2 : c.name = ticketName
    · exact absurd (h1.symm.trans h2) sexName_ne_ticketName
    · rw [if_neg h2]
      by_cases h3 : c.name = embName
      · exact absurd (h1.symm.trans h3) sexName_ne_embName
      · rw [if_neg h3]
  · rw [if_neg h1]
    by_cases h2 : c.name = ticketName
    · rw [if_pos h2, hup h2]
      by_cases h3 : c.name = embName
      · exact absurd (h2.symm.trans h3) ticketName_ne_embName
      · rw [if_neg h3]
    · rw [if_neg h2]
      by_cases h3 : c.name = embName
      · rw [if_pos h3, hemb h3]
      · rw [if_neg h3]

theorem textNorm_of_normed {t : Table} (h : ∀ c ∈ t.cols, c.Normed) :
    t.textNorm = t := by
  rw [textNorm_eq_map]
  cases t with | mk cols =>
  have : cols.map normColF = cols := by
    conv_rhs => rw [← List.map_id cols]
    apply List.map_congr_left
    intro c hc
    simpa using normColF_eq_of_normed (h c hc)
  rw [this]

theorem typeOk_of_subset (c c2 : Col) (hnum : c2.isNum = c.isNum)
    (hsub : ∀ x ∈ c2.cells, x ∈ c.cells) (h : c.typeOk = true) : c2.typeOk = true := by
  apply List.all_eq_true.mpr
  intro x hx
  have h2 := List.all_eq_true.mp h x (hsub x hx)
  rw [hnum]
  exact h2

theorem normed_of_subset (c c2 : Col) (hname : c2.name = c.name)
    (hsub : ∀ x ∈ c2.cells, x ∈ c.cells) (h : c.Normed) : c2.Normed := by
  intro x hx
  rw [hname]
  exact h x (hsub x hx)

theorem dedup_cols {t : Table} :
    t.dedup.cols
      = t.cols.map (fun c => { c with cells := selectIdxs c.cells (keepIdxs t.rows) }) :=
  rfl

theorem dedup_typeWf {t : Table} (h : t.TypeWf) : t.dedup.TypeWf := by
  intro c hc
  rw [dedup_cols] at hc
  rcases List.mem_map.mp hc with ⟨c0, hc0, rfl⟩
  exact typeOk_of_subset c0 _ rfl (fun x hx => selectIdxs_mem hx) (h c0 hc0)

theorem cell_kindOk_map {b : Bool} {f : Cell → Cell}
    (hna : f Cell.na = Cell.na)
    (hnum : ∀ q, ∃ q2, f (Cell.num q) = Cell.num q2)
    (hstr : ∀ s, (∃ s2, f (Cell.str s) = Cell.str s2) ∨ f (Cell.str s) = Cell.na)
    {x : Cell} (hx : kindOk b x = true) : kindOk b (f x) = true := by
  cases x with
  | na => rw [hna]; exact hx
  | num q =>
    rcases hnum q with ⟨q2, hq⟩
    rw [hq]
    cases b
    · simp [kindOk] at hx
    · rfl
  | str s =>
    cases b
    · rcases hstr s with ⟨s2, hs⟩ | hs <;> rw [hs] <;> rfl
    · simp [kindOk] at hx

theorem normColF_typeOk {c : Col} (h : c.typeOk = true) :
    (normColF c).typeOk = true := by
  by_cases hn : c.isNum
  · rw [normColF_eq_of_num hn h]
    exact h
  · have hn2 : c.isNum = false := Bool.not_eq_true c.isNum ▸ hn
    unfold Col.typeOk
    apply List.all_eq_true.mpr
    intro x hx
    rw [normColF_isNum]
    rw [normColF_cells_obj hn2] at hx
    have hmain : ∀ g : Cell → Cell, g Cell.na = Cell.na →
        (∀ q, ∃ q2, g (Cell.num q) = Cell.num q2) →
        (∀ s, (∃ s2, g (Cell.str s) = Cell.str s2) ∨ g (Cell.str s) = Cell.na) →
        x ∈ c.cells.map g → kindOk c.isNum x = true := by
      intro g hna hnum hstr hxg
      rcases List.mem_map.mp hxg with ⟨y, hy, rfl⟩
      exact cell_kindOk_map hna hnum hstr (List.all_eq_true.mp h y hy)
    split at hx
    · exact hmain _ rfl (fun q => ⟨q, rfl⟩)
        (fun s => Or.inl ⟨lowerStr (strip s), rfl⟩) hx
    · split at hx
      · exact hmain _ rfl (fun q => ⟨q, rfl⟩)
          (fun s => Or.inl ⟨upperStr (strip s), rfl⟩) hx
      · split at hx
        · refine hmain _ rfl (fun q => ⟨q, rfl⟩) (fun s => ?_) hx
          by_cases hnil : strip s = []
          · right
            simp [stripCell, embCell, hnil]
          · left
            exact ⟨strip s, by simp [stripCell, embCell, hnil]⟩
        · exact hmain _ rfl (fun q => ⟨q, rfl⟩)
            (fun s => Or.inl ⟨strip s, rfl⟩) hx

theorem textNorm_typeWf {t : Table} (h : t.TypeWf) : t.textNorm.TypeWf := by
  rw [textNorm_eq_map]
  intro c hc
  rcases List.mem_map.mp hc with ⟨c0, hc0, rfl⟩
  exact normColF_typeOk (h c0 hc0)

theorem mem_dropHighMissing_iff {t : Table} {c : Col} :
    c ∈ t.dropHighMissing.cols ↔ c ∈ t.cols ∧ ¬ missingPct c > 60 := by
  unfold Table.dropHighMissing
  rw [List.mem_filter]
  constructor
  · rintro ⟨h1, h2⟩
    refine ⟨h1, ?_⟩
    intro hgt
    rw [decide_eq_true hgt] at h2
    exact Bool.false_ne_true h2
  · rintro ⟨h1, h2⟩
    refine ⟨h1, ?_⟩
    rw [decide_eq_false h2]
    rfl

theorem naCount_eq_zero_iff {c : Col} :
    naCount c = 0 ↔ ∀ x ∈ c.cells, x.isNa = false := by
  unfold naCount
  rw [List.countP_eq_zero]
  constructor <;> intro h x hx
  · cases hxb : x.isNa
    · rfl
    · exact absurd hxb (h x hx)
  · intro hb
    rw [h x hx] at hb
    exact Bool.false_ne_true hb

theorem missingPct_all_na {c : Col} (hne : c.cells.length ≠ 0)
    (h : ∀ x ∈ c.cells, x.isNa = true) : missingPct c = 100 := by
  unfold missingPct
  rw [if_neg hne]
  have hcount : naCount c = c.cells.length := by
    unfold naCount
    exact List.countP_eq_length.mpr (fun a ha => h a ha)
  rw [hcount]
  have hq : (c.cells.length : ℚ) ≠ 0 := Nat.cast_ne_zero.mpr hne
  rw [div_self hq, one_mul]

theorem missingPct_of_no_na {c : Col} (h : naCount c = 0) : missingPct c = 0 := by
  unfold missingPct
  split
  · rfl
  · rw [h]
    norm_num

theorem presentNums_nil_all_na {c : Col} (hn : c.isNum = true) (h : c.typeOk = true)
    (hp : presentNums c.cells = []) : ∀ x ∈ c.cells, x.isNa = true := by
  intro x hx
  rcases typeOk_num_cases hn h x hx with rfl | ⟨q, rfl⟩
  · rfl
  · exfalso
    have hq : q ∈ presentNums c.cells := by
      unfold presentNums
      exact List.mem_filterMap.mpr ⟨Cell.num q, hx, rfl⟩
    rw [hp] at hq
    cases hq

theorem naCount_fillNaWith (v : Cell) (hv : v.isNa = false) (cells : List Cell) :
    (fillNaWith v cells).countP Cell.isNa = 0 := by
  rw [List.countP_eq_zero]
  intro a ha
  rcases List.mem_map.mp ha with ⟨y, hy, rfl⟩
  by_cases hna : y.isNa = true
  · rw [if_pos hna, hv]
    exact Bool.false_ne_true
  · rw [if_neg hna]
    exact hna

theorem length_ne_zero_of_any {c : Col} (hany : c.cells.any Cell.isNa = true) :
    c.cells.length ≠ 0 := by
  rcases List.any_eq_true.mp hany with ⟨x, hx, _⟩
  intro h0
  rw [List.length_eq_zero.mp h0] at hx
  cases hx

theorem numFill_no_na {c : Col} (hn : c.isNum = true) (h : c.typeOk = true)
    (hkeep : ¬ missingPct c > 60) : naCount c.numFill = 0 := by
  unfold Col.numFill
  by_cases hany : c.cells.any Cell.isNa = true
  · rw [if_pos hany]
    cases hp : presentNums c.cells with
    | nil =>
      exfalso
      apply hkeep
      rw [missingPct_all_na (length_ne_zero_of_any hany) (presentNums_nil_all_na hn h hp)]
      norm_num
    | cons q l =>
      show (fillNaWith (Cell.num (medianQ (q :: l))) c.cells).countP Cell.isNa = 0
      exact naCount_fillNaWith (Cell.num (medianQ (q :: l))) rfl c.cells
  · rw [if_neg hany]
    unfold naCount
    rw [List.countP_eq_zero]
    intro a ha hna
    exact hany (List.any_eq_true.mpr ⟨a, ha, hna⟩)

theorem catFill_no_na (c : Col) : naCount c.catFill = 0 := by
  unfold Col.catFill
  by_cases hany : c.cells.any Cell.isNa = true
  · rw [if_pos hany]
    show (fillNaWith (Cell.str (catFillValue c.cells)) c.cells).countP Cell.isNa = 0
    exact naCount_fillNaWith (Cell.str (catFillValue c.cells)) rfl c.cells
  · rw [if_neg hany]
    unfold naCount
    rw [List.countP_eq_zero]
    intro a ha hna
    exact hany (List.any_eq_true.mpr ⟨a, ha, hna⟩)

theorem impute_cols {t : Table} :
    t.impute.cols = t.cols.map (fun c => if c.isNum then c.numFill else c.catFill) :=
  rfl

theorem clean_no_na {t : Table} (h : t.TypeWf) :
    ∀ c ∈ (clean t).cols, naCount c = 0 := by
  intro c hc
  rcases List.mem_map.mp (impute_cols ▸ hc) with ⟨c0, hc0, rfl⟩
  have hsub := mem_dropHighMissing_iff.mp hc0
  have htw : (t.dedup.textNorm).TypeWf := textNorm_typeWf (dedup_typeWf h)
  have hok : c0.typeOk = true := htw c0 hsub.1
  by_cases hn : c0.isNum
  · rw [if_pos hn]
    exact numFill_no_na hn hok hsub.2
  · rw [if_neg hn]
    exact catFill_no_na c0

theorem fillNaWith_mem {v : Cell} {cells : List Cell} {x : Cell}
    (h : x ∈ fillNaWith v cells) : x = v ∨ x ∈ cells := by
  rcases List.mem_map.mp h with ⟨y, hy, rfl⟩
  by_cases hna : y.isNa = true
  · left
    rw [if_pos hna]
  · right
    rw [if_neg hna]
    exact hy

theorem numFill_normed {c : Col} (h : c.Normed) : c.numFill.Normed := by
  unfold Col.numFill
  by_cases hany : c.cells.any Cell.isNa = true
  · rw [if_pos hany]
    cases hp : presentNums c.cells with
    | nil => exact h
    | cons q l =>
      intro x hx
      rcases fillNaWith_mem hx with rfl | hxc
      · exact normFixed_of_not_str (fun s hs => by cases hs)
      · exact h x hxc
  · rw [if_neg hany]
    exact h

theorem catFill_normed {c : Col} (hn : c.isNum = false) (hok : c.typeOk = true)
    (hkeep : ¬ missingPct c > 60) (h : c.Normed) : c.catFill.Normed := by
  unfold Col.catFill
  by_cases hany : c.cells.any Cell.isNa = true
  · rw [if_pos hany]
    intro x hx
    rcases fillNaWith_mem hx with rfl | hxc
    · have hps : presentStrs c.cells ≠ [] := by
        intro hnil
        apply hkeep
        have hall : ∀ y ∈ c.cells, y.isNa = true := by
          intro y hy
          rcases typeOk_obj_cases hn hok y hy with rfl | ⟨s, rfl⟩
          · rfl
          · exfalso
            have hmem : s ∈ presentStrs c.cells := presentStrs_mem.mpr hy
            rw [hnil] at hmem
            cases hmem
        rw [missingPct_all_na (length_ne_zero_of_any hany) hall]
        norm_num
      have hcell : Cell.str (catFillValue c.cells) ∈ c.cells :=
        presentStrs_mem.mp (catFillValue_mem hps)
      exact h _ hcell
    · exact h x hxc
  · rw [if_neg hany]
    exact h

theorem clean_normed {t : Table} (h : t.TypeWf) :
    ∀ c ∈ (clean t).cols, c.Normed := by
  intro c hc
  rcases List.mem_map.mp (impute_cols ▸ hc) with ⟨c0, hc0, rfl⟩
  have hsub := mem_dropHighMissing_iff.mp hc0
  have hnormed0 : c0.Normed := textNorm_normed (dedup_typeWf h) c0 hsub.1
  have hok : c0.typeOk = true := textNorm_typeWf (dedup_typeWf h) c0 hsub.1
  by_cases hn : c0.isNum
  · rw [if_pos hn]
    exact numFill_normed hnormed0
  · rw [if_neg hn]
    exact catFill_normed (Bool.not_eq_true c0.isNum ▸ hn) hok hsub.2 hnormed0

theorem dropHighMissing_of_no_na {t : Table} (h : ∀ c ∈ t.cols, naCount c = 0) :
    t.dropHighMissing = t := by
  unfold Table.dropHighMissing
  cases t with | mk cols =>
  apply congrArg Table.mk
  apply List.filter_eq_self.mpr
  intro c hc
  rw [decide_eq_false (by rw [missingPct_of_no_na (h c hc)]; norm_num)]
  rfl

theorem impute_of_no_na {t : Table} (h : ∀ c ∈ t.cols, naCount c = 0) :
    t.impute = t := by
  unfold Table.impute
  cases t with | mk cols =>
  apply congrArg Table.mk
  apply map_eq_self_of_id
  intro c hc
  have hno : ¬ c.cells.any Cell.isNa = true := by
    intro hany
    rcases List.any_eq_true.mp hany with ⟨x, hx, hna⟩
    rw [naCount_eq_zero_iff.mp (h c hc) x hx] at hna
    exact Bool.false_ne_true hna
  by_cases hn : c.isNum
  · rw [if_pos hn]
    unfold Col.numFill
    rw [if_neg hno]
  · rw [if_neg hn]
    unfold Col.catFill
    rw [if_neg hno]

theorem clean_clean {t : Table} (h : t.TypeWf) :
    clean (clean t) = (clean t).dedup := by
  have hNorm := clean_normed h
  have hNa := clean_no_na h
  have hDnorm : ∀ c ∈ (clean t).dedup.cols, c.Normed := by
    intro c hc
    rcases List.mem_map.mp (dedup_cols ▸ hc) with ⟨c0, hc0, rfl⟩
    exact normed_of_subset c0 _ rfl (fun x hx => selectIdxs_mem hx) (hNorm c0 hc0)
  have hDna : ∀ c ∈ (clean t).dedup.cols, naCount c = 0 := by
    intro c hc
    rcases List.mem_map.mp (dedup_cols ▸ hc) with ⟨c0, hc0, rfl⟩
    apply naCount_eq_zero_iff.mpr
    intro x hx
    exact naCount_eq_zero_iff.mp (hNa c0 hc0) x (selectIdxs_mem hx)
  show ((((clean t).dedup).textNorm).dropHighMissing).impute = (clean t).dedup
  rw [textNorm_of_normed hDnorm, dropHighMissing_of_no_na hDna, impute_of_no_na hDna]

theorem nrows_map {cols : List Col} {f : Col → Col}
    (hf : ∀ c, (f c).cells.length = c.cells.length) :
    (⟨cols.map f⟩ : Table).nrows = (⟨cols⟩ : Table).nrows := by
  cases cols with
  | nil => rfl
  | cons c cs => exact hf c

theorem wf_map_lenpres {t : Table} {f : Col → Col}
    (hf : ∀ c, (f c).cells.length = c.cells.length) (h : t.Wf) :
    (⟨t.cols.map f⟩ : Table).Wf := by
  intro c hc
  rcases List.mem_map.mp hc with ⟨c0, hc0, rfl⟩
  cases t with | mk cols =>
  rw [hf c0, nrows_map hf]
  exact h c0 hc0

theorem wf_of_mem_sub {t : Table} {cols2 : List Col}
    (hsub : ∀ c ∈ cols2, c ∈ t.cols) (h : t.Wf) : (⟨cols2⟩ : Table).Wf := by
  intro c hc
  have h1 : c.cells.length = t.nrows := h c (hsub c hc)
  cases cols2 with
  | nil => cases hc
  | cons c1 cs =>
    have h2 : c1.cells.length = t.nrows := h c1 (hsub c1 (List.mem_cons_self c1 cs))
    show c.cells.length = c1.cells.length
    rw [h1, h2]

theorem normColF_len (c : Col) : (normColF c).cells.length = c.cells.length := by
  obtain ⟨nm, bn, cl⟩ := c
  simp only [normColF, Col.stripCol]
  repeat' split <;> simp

theorem fillNaWith_length (v : Cell) (cells : List Cell) :
    (fillNaWith v cells).length = cells.length := List.length_map cells _

theorem numFill_len (c : Col) : c.numFill.cells.length = c.cells.length := by
  unfold Col.numFill
  by_cases hany : c.cells.any Cell.isNa = true
  · rw [if_pos hany]
    cases hp : presentNums c.cells with
    | nil => rfl
    | cons q l => exact fillNaWith_length _ c.cells
  · rw [if_neg hany]

theorem catFill_len (c : Col) : c.catFill.cells.length = c.cells.length := by
  unfold Col.catFill
  by_cases hany : c.cells.any Cell.isNa = true
  · rw [if_pos hany]
    exact fillNaWith_length _ c.cells
  · rw [if_neg hany]

theorem imputeCol_len (c : Col) :
    (if c.isNum then c.numFill else c.catFill).cells.length = c.cells.length := by
  by_cases hn : c.isNum
  · rw [if_pos hn]
    exact numFill_len c
  · rw [if_neg hn]
    exact catFill_len c

theorem textNorm_wf {t : Table} (h : t.Wf) : t.textNorm.Wf := by
  rw [textNorm_eq_map]
  exact wf_map_lenpres normColF_len h

theorem dropHighMissing_wf {t : Table} (h : t.Wf) : t.dropHighMissing.Wf :=
  wf_of_mem_sub (fun c hc => (List.mem_filter.mp hc).1) h

theorem impute_wf {t : Table} (h : t.Wf) : t.impute.Wf :=
  wf_map_lenpres imputeCol_len h

theorem dedup_wf {t : Table} (h : t.Wf) : t.dedup.Wf := by
  have hlen : ∀ c0 ∈ t.cols,
      (selectIdxs c0.cells (keepIdxs t.rows)).length = (keepIdxs t.rows).length := by
    intro c0 hc0
    apply selectIdxs_length (h c0 hc0)
    intro i hi
    have h2 := keepIdxs_lt hi
    rwa [rows_length] at h2
  intro c hc
  rcases List.mem_map.mp (dedup_cols ▸ hc) with ⟨c0, hc0, rfl⟩
  show (selectIdxs c0.cells (keepIdxs t.rows)).length = _
  rw [hlen c0 hc0]
  rcases ht : t.cols with _ | ⟨c1, cs⟩
  · rw [ht] at hc0
    cases hc0
  · have hr : t.dedup.nrows = (selectIdxs c1.cells (keepIdxs t.rows)).length := by
      unfold Table.dedup Table.nrows
      rw [ht]
      rfl
    rw [hr, hlen c1 (by rw [ht]; exact List.mem_cons_self c1 cs)]

theorem clean_wf {t : Table} (h : t.Wf) : (clean t).Wf :=
  impute_wf (dropHighMissing_wf (textNorm_wf (dedup_wf h)))

theorem normColF_empty {c : Col} (h : c.cells = []) : normColF c = c := by
  obtain ⟨nm, bn, cl⟩ := c
  simp only at h
  subst h
  simp [normColF, Col.stripCol]

theorem dedup_empty {t : Table} (h : ∀ c ∈ t.cols, c.cells = []) : t.dedup = t := by
  unfold Table.dedup
  cases t with | mk cols =>
  apply congrArg Table.mk
  apply map_eq_self_of_id
  intro c hc
  show ({ c with cells := selectIdxs c.cells (keepIdxs (Table.mk cols).rows) } : Col) = c
  have hc0 : c.cells = [] := h c hc
  have hsel : selectIdxs c.cells (keepIdxs (Table.mk cols).rows) = [] := by
    rw [hc0]
    unfold selectIdxs
    apply List.filterMap_eq_nil.mpr
    intro i _
    rfl
  rw [hsel, ← hc0]

theorem clean_empty {t : Table} (h : ∀ c ∈ t.cols, c.cells = []) : clean t = t := by
  have hna : ∀ c ∈ t.cols, naCount c = 0 := by
    intro c hc
    unfold naCount
    rw [h c hc]
    rfl
  have hnorm : t.textNorm = t := by
    rw [textNorm_eq_map]
    cases t with | mk cols =>
    apply congrArg Table.mk
    apply map_eq_self_of_id
    intro c hc
    exact normColF_empty (h c hc)
  show t.dedup.textNorm.dropHighMissing.impute = t
  rw [dedup_empty h, hnorm, dropHighMissing_of_no_na hna, impute_of_no_na hna]

theorem strSort_sorted (l : List Str) :
    List.Sorted (fun a b : Str => a ≤ b) (strSort l) :=
  List.sorted_insertionSort _ l

theorem catFill_tie_min {cells : List Cell} (h : presentStrs cells ≠ []) :
    catFillValue cells ∈ modeCandidates cells ∧
      ∀ v ∈ modeCandidates cells, catFillValue cells ≤ v := by
  have hperm := modeSorted_perm cells
  have hne : modeSorted cells ≠ [] := by
    intro hnil
    apply modeCandidates_ne_nil h
    have hlen := hperm.length_eq
    rw [hnil] at hlen
    exact List.length_eq_zero.mp hlen.symm
  rcases hms : modeSorted cells with _ | ⟨m, rest⟩
  · cases hne hms
  · have hval : catFillValue cells = m := by
      simp only [catFillValue, hms]
    have hsorted := strSort_sorted (modeCandidates cells)
    rw [show strSort (modeCandidates cells) = modeSorted cells from rfl, hms] at hsorted
    constructor
    · rw [hval]
      exact hperm.subset (by rw [hms]; exact List.mem_cons_self m rest)
    · intro v hv
      have hv2 : v ∈ m :: rest := by
        rw [← hms]
        exact hperm.symm.subset hv
      rw [hval]
      rcases List.mem_cons.mp hv2 with rfl | hv3
      · exact le_refl v
      · exact List.rel_of_sorted_cons hsorted v hv3

theorem mem_zip_self {xs : List ℚ} {p : ℚ × ℚ} (h : p ∈ xs.zip xs) : p.1 = p.2 := by
  induction xs with
  | nil => cases h
  | cons a t ih =>
    rcases List.mem_cons.mp h with rfl | h2
    · rfl
    · exact ih h2

theorem varQ_nonneg (xs : List ℚ) : 0 ≤ varQ xs := by
  rcases xs with _ | ⟨a, l⟩
  · simp [varQ, covQ]
  · unfold varQ covQ
    apply div_nonneg
    · apply List.sum_nonneg
      intro x hx
      rcases List.mem_map.mp hx with ⟨p, hp, rfl⟩
      have hpp := mem_zip_self hp
      rw [← hpp]
      exact mul_self_nonneg _
    · rw [List.length_cons]
      push_cast
      have hc : (0 : ℚ) ≤ (l.length : ℚ) := Nat.cast_nonneg l.length
      linarith

theorem pearson_diag {xs : List ℚ} (h : varQ xs ≠ 0) : pearson xs xs = some 1 := by
  unfold pearson
  rw [if_neg (by push_neg; exact ⟨h, h⟩)]
  have hv : (0 : ℝ) < ((varQ xs : ℚ) : ℝ) := by
    have h1 := varQ_nonneg xs
    have h2 : (0 : ℚ) < varQ xs := lt_of_le_of_ne h1 (Ne.symm h)
    exact_mod_cast h2
  congr 1
  show ((covQ xs xs : ℚ) : ℝ) / Real.sqrt _ = 1
  have hcv : covQ xs xs = varQ xs := rfl
  rw [hcv, Real.sqrt_mul_self (le_of_lt hv)]
  exact div_self (ne_of_gt hv)

theorem covQ_symm {xs ys : List ℚ} (h : xs.length = ys.length) :
    covQ xs ys = covQ ys xs := by
  unfold covQ
  rw [h]
  congr 1
  rw [← List.zip_swap xs ys, List.map_map]
  apply congrArg List.sum
  apply List.map_congr_left
  intro p _
  show (p.1 - meanQ xs) * (p.2 - meanQ ys)
      = ((fun p => (p.1 - meanQ ys) * (p.2 - meanQ xs)) ∘ Prod.swap) p
  simp only [Function.comp, Prod.swap]
  ring

theorem pearson_symm {xs ys : List ℚ} (h : xs.length = ys.length) :
    pearson xs ys = pearson ys xs := by
  unfold pearson
  by_cases hc : varQ xs = 0 ∨ varQ ys = 0
  · rw [if_pos hc, if_pos (Or.symm hc)]
  · rw [if_neg hc, if_neg (fun h2 => hc (Or.symm h2))]
    rw [covQ_symm h, mul_comm ((varQ xs : ℚ) : ℝ) ((varQ ys : ℚ) : ℝ)]

theorem pairPresent_symm (xs ys : List Cell) :
    pairPresent ys xs = (pairPresent xs ys).map Prod.swap := by
  unfold pairPresent
  rw [← List.zip_swap xs ys, List.filterMap_map, List.map_filterMap]
  apply List.filterMap_congr
  intro p _
  rcases p with ⟨a, b⟩
  cases a <;> cases b <;> rfl

theorem mem_zip_self_cell {xs : List Cell} {p : Cell × Cell}
    (h : p ∈ xs.zip xs) : p.1 = p.2 := by
  induction xs with
  | nil => cases h
  | cons a t ih =>
    rcases List.mem_cons.mp h with rfl | h2
    · rfl
    · exact ih h2

theorem pairPresent_self (xs : List Cell) :
    (pairPresent xs xs).map Prod.fst = (pairPresent xs xs).map Prod.snd := by
  apply List.map_congr_left
  intro p hp
  rcases List.mem_filterMap.mp hp with ⟨q, hq, hfq⟩
  have hqq := mem_zip_self_cell hq
  rcases q with ⟨q1, q2⟩
  simp only at hqq
  subst hqq
  cases q1 with
  | na => cases hfq
  | num a =>
    simp only at hfq
    cases hfq
    rfl
  | str s => cases hfq

theorem cellCorr_symm (xs ys : List Cell) : cellCorr ys xs = cellCorr xs ys := by
  unfold cellCorr
  rw [pairPresent_symm, List.map_map, List.map_map]
  have h1 : (Prod.fst ∘ Prod.swap : ℚ × ℚ → ℚ) = Prod.snd := rfl
  have h2 : (Prod.snd ∘ Prod.swap : ℚ × ℚ → ℚ) = Prod.fst := rfl
  rw [h1, h2]
  exact pearson_symm (by rw [List.length_map, List.length_map])

theorem cellCorr_diag {xs : List Cell}
    (h : varQ ((pairPresent xs xs).map Prod.fst) ≠ 0) : cellCorr xs xs = some 1 := by
  unfold cellCorr
  rw [← pairPresent_self]
  exact pearson_diag h

theorem entry?_corrMatrix (t : Table) (i j : ℕ) :
    entry? (corrMatrix t) i j
      = ((numericCols t).get? i).bind
          (fun c => ((numericCols t).get? j).map (fun d => cellCorr c.cells d.cells)) := by
  unfold entry? corrMatrix
  rw [List.get?_map]
  cases (numericCols t).get? i with
  | none => rfl
  | some c =>
    show ((numericCols t).map (fun d => cellCorr c.cells d.cells)).get? j = _
    rw [List.get?_map]
    rfl

theorem entry?_corrMatrix_symm (t : Table) (i j : ℕ) :
    entry? (corrMatrix t) i j = entry? (corrMatrix t) j i := by
  rw [entry?_corrMatrix, entry?_corrMatrix]
  cases (numericCols t).get? i with
  | none =>
    cases (numericCols t).get? j with
    | none => rfl
    | some d => rfl
  | some c =>
    cases (numericCols t).get? j with
    | none => rfl
    | some d =>
      show some (cellCorr c.cells d.cells) = some (cellCorr d.cells c.cells)
      rw [cellCorr_symm]

/-- Claim C1: for every dtype-consistent input table, after the full
cleaning transformation every column remaining in the output has a
missing-value count of zero.  The all-missing escape hatch of the claim
never materializes: an all-missing column of a table with rows is dropped
by the 60 percent threshold, and a zero-row column has no missing values,
so the conclusion holds for every remaining column outright. -/
theorem clean_missing_count_zero (t : Table) (h : t.TypeWf) :
    ∀ c ∈ (clean t).cols, naCount c = 0 :=
  clean_no_na h

/-- Witness for C1 at a concrete table with a missing value. -/
theorem clean_missing_count_zero_witness :
    tDup.TypeWf ∧ ∀ c ∈ (clean tDup).cols, naCount c = 0 :=
  ⟨by decide, clean_missing_count_zero tDup (by decide)⟩

/-- Claim C2, counterexample: on the scenario column the linear
interpolation quantile gives Q1 = 2.25, not the value 2 stated by the
specification. -/
theorem outlier_scenario_q1_ne_two : (outlierStats cTitanic).q1 ≠ 2 := by
  decide

/-- Claim C2, amended: on values [1,2,2,3,3,3,4,4,5,100] the linear
interpolation quantiles are Q1 = 2.25 and Q3 = 4, hence IQR = 1.75 and
fences [-0.375, 6.625], and exactly one value (100) is counted as an
outlier, counting only values strictly outside the fences. -/
theorem outlier_scenario_amended :
    outlierStats cTitanic
        = ⟨9 / 4, 4, 7 / 4, -3 / 8, 53 / 8, 1⟩ ∧
      outlierCount cTitanic = 1 := by
  constructor <;> decide

/-- Claim C3: after deduplication and text normalization, a column is
dropped exactly when its missing percentage strictly exceeds 60 (the
fraction strictly exceeds 0.60); a column with 7 of 10 values missing has
percentage 70 and is dropped, one with 6 of 10 has percentage 60 and is
retained. -/
theorem drop_threshold_strict :
    (∀ t : Table, ∀ c ∈ (t.dedup.textNorm).cols,
      (c ∉ (t.dedup.textNorm).dropHighMissing.cols ↔ missingPct c > 60)) ∧
    (Table.dropHighMissing ⟨[col7ex, col6ex]⟩).cols = [col6ex] ∧
    missingPct col7ex = 70 ∧ missingPct col6ex = 60 := by
  refine ⟨?_, by decide, by decide, by decide⟩
  intro t c hc
  constructor
  · intro hnot
    by_contra hng
    exact hnot (mem_dropHighMissing_iff.mpr ⟨hc, hng⟩)
  · intro hgt hmem
    exact (mem_dropHighMissing_iff.mp hmem).2 hgt

/-- Witness for C3 at the ten-row table with the two scenario columns. -/
theorem drop_threshold_strict_witness :
    col7ex ∈ (tC3ex.dedup.textNorm).cols ∧ col6ex ∈ (tC3ex.dedup.textNorm).cols ∧
      col7ex ∉ (tC3ex.dedup.textNorm).dropHighMissing.cols ∧
      col6ex ∈ (tC3ex.dedup.textNorm).dropHighMissing.cols := by
  refine ⟨by decide, by decide, ?_, by decide⟩
  exact (drop_threshold_strict.1 tC3ex col7ex (by decide)).mpr (by decide)

/-- Claim C4, counterexample: cleaning is not idempotent.  On a column
with values 1 and missing, imputation fills the missing value with the
median 1, so the cleaned table has two equal rows, and a second cleaning
removes one of them. -/
theorem clean_not_idempotent : clean (clean tDup) ≠ clean tDup := by decide

/-- Claim C4, amended: for a well-formed dtype-consistent table, a second
cleaning equals deduplication of the first output: no column is dropped
and no value changes, and a row is removed only when imputation or
normalization made two rows identical.  In particular, when the cleaned
output has no duplicate rows, cleaning is a no-op on it. -/
theorem clean_clean_eq_dedup (t : Table) (h1 : t.TypeWf) (h2 : t.Wf) :
    clean (clean t) = (clean t).dedup ∧
      ((clean t).rows.Nodup → clean (clean t) = clean t) := by
  refine ⟨clean_clean h1, ?_⟩
  intro hnd
  rw [clean_clean h1, dedup_eq_self_of_nodup (clean_wf h2) hnd]

/-- Witness for C4 at a duplicate-free cleaned table. -/
theorem clean_clean_eq_dedup_witness :
    tWit.TypeWf ∧ tWit.Wf ∧ (clean tWit).rows.Nodup ∧ clean (clean tWit) = clean tWit := by
  refine ⟨by decide, by decide, by decide, ?_⟩
  exact (clean_clean_eq_dedup tWit (by decide) (by decide)).2 (by decide)
/-- Claim C5, counterexample: the cleaner matches the designated column
names exactly, not case-insensitively.  A column named with the lowercase
variant of the designated name keeps its uppercase values: text
normalization leaves this table unchanged although lowercasing would have
changed the value. -/
theorem textNorm_not_case_insensitive :
    Table.textNorm tSexLower = tSexLower ∧ lowerStr (lit "MALE") ≠ lit "MALE" := by
  constructor <;> decide

/-- Claim C5, amended: text normalization selects the three designated
columns by exact name match.  Column for column, names and dtypes are
kept; an object column named exactly Sex is trimmed then lowercased, one
named exactly Ticket is trimmed then uppercased, in one named exactly
Embarked trimmed empty strings become missing, and every other object
column, including one differing from a designated name only in letter
case, is only trimmed. -/
theorem textNorm_exact_match (t : Table) :
    List.Forall₂ (fun c c2 => c2.name = c.name ∧ c2.isNum = c.isNum ∧
      (c.isNum = false → c2.cells =
        if c.name = sexName then c.cells.map (fun x => lowerCell (stripCell x))
        else if c.name = ticketName then c.cells.map (fun x => upperCell (stripCell x))
        else if c.name = embName then c.cells.map (fun x => embCell (stripCell x))
        else c.cells.map stripCell))
      t.cols t.textNorm.cols := by
  rw [textNorm_eq_map]
  cases t with | mk cols =>
  show List.Forall₂ _ cols (cols.map normColF)
  induction cols with
  | nil => exact List.Forall₂.nil
  | cons c cs ih =>
    exact List.Forall₂.cons
      ⟨normColF_name c, normColF_isNum c, fun hobj => normColF_cells_obj hobj⟩ ih

/-- Witness for C5 at a one-column table named exactly Sex. -/
theorem textNorm_exact_match_witness :
    List.Forall₂ (fun c c2 => c2.name = c.name ∧ c2.isNum = c.isNum ∧
      (c.isNum = false → c2.cells =
        if c.name = sexName then c.cells.map (fun x => lowerCell (stripCell x))
        else if c.name = ticketName then c.cells.map (fun x => upperCell (stripCell x))
        else if c.name = embName then c.cells.map (fun x => embCell (stripCell x))
        else c.cells.map stripCell))
      tHdr.cols tHdr.textNorm.cols :=
  textNorm_exact_match tHdr
/-- Claim C6, counterexample: with at least two numeric columns present,
the diagonal correlation entry of a constant column is undefined (the NaN
of the source, the none of this model), not 1.0. -/
theorem corr_diag_constant_undefined :
    2 ≤ (numericCols tConst).length ∧ entry? (corrMatrix tConst) 0 0 = some none := by
  refine ⟨by decide, ?_⟩
  rw [entry?_corrMatrix]
  have h0 : (numericCols tConst).get? 0 = some ⟨lit "a", true, [.num 1, .num 1]⟩ := by
    decide
  rw [h0]
  show some (cellCorr [Cell.num 1, Cell.num 1] [Cell.num 1, Cell.num 1]) = some none
  congr 1

/-- Claim C6, amended: when the table has at least two numeric columns the
correlation step produces the full pairwise matrix, which is symmetric,
and every diagonal entry whose column has nonzero variance over its
present values equals 1.0; a zero-variance column makes its entries
undefined (NaN).  With fewer than two numeric columns the step is skipped
with a warning, modelled by the none result, not an error. -/
theorem corrStep_spec (t : Table) :
    (2 ≤ (numericCols t).length →
      corrStep t = some (corrMatrix t) ∧
      (∀ i j, entry? (corrMatrix t) i j = entry? (corrMatrix t) j i) ∧
      (∀ i c, (numericCols t).get? i = some c →
        varQ ((pairPresent c.cells c.cells).map Prod.fst) ≠ 0 →
        entry? (corrMatrix t) i i = some (some 1))) ∧
    ((numericCols t).length < 2 → corrStep t = none) := by
  constructor
  · intro h2
    refine ⟨?_, entry?_corrMatrix_symm t, ?_⟩
    · unfold corrStep
      rw [if_pos h2]
    · intro i c hi hvar
      rw [entry?_corrMatrix, hi]
      show some (cellCorr c.cells c.cells) = some (some 1)
      rw [cellCorr_diag hvar]
  · intro hlt
    unfold corrStep
    rw [if_neg (by omega)]

/-- Witness for C6 at a two-column table with nonzero variances. -/
theorem corrStep_spec_witness :
    2 ≤ (numericCols tVar).length ∧ entry? (corrMatrix tVar) 0 0 = some (some 1) := by
  refine ⟨by decide, ?_⟩
  exact ((corrStep_spec tVar).1 (by decide)).2.2 0 ⟨lit "a", true, [.num 1, .num 2]⟩
    (by decide) (by decide)
/-- Claim C7: on the four scenario rows the rate-by-sex aggregation
reports female = 1.0 then male = 0.5 in descending order of rate, and the
step is skipped (with a warning, modelled by none) whenever either named
column is absent under case-insensitive lookup. -/
theorem rate_by_sex_scenario :
    survStep tSurv
        = some [(.str (lit "female"), some 1), (.str (lit "male"), some (1 / 2))] ∧
      ∀ t : Table,
        (colname t (lit "sex") = none ∨ colname t (lit "survived") = none) →
          survStep t = none := by
  constructor
  · decide
  · intro t ht
    unfold survStep
    rcases h1 : colname t (lit "sex") with _ | sc
    · rfl
    · rcases h2 : colname t (lit "survived") with _ | vc
      · rfl
      · exfalso
        rcases ht with h | h
        · rw [h1] at h
          cases h
        · rw [h2] at h
          cases h

/-- Witness for C7 at a table with no columns. -/
theorem rate_by_sex_scenario_witness :
    colname tNoCols (lit "sex") = none ∧ survStep tNoCols = none :=
  ⟨by decide, rate_by_sex_scenario.2 tNoCols (Or.inl (by decide))⟩

/-- Claim C8: when the required input file is absent the analyzer run
fails at once with an error whose message names the missing file and no
artifact is produced; when the file exists, loading proceeds and the run
reaches its outputs. -/
theorem eda_missing_input :
    edaRun false = Except.error missingMsg ∧ inputFile <:+: missingMsg ∧
      edaRun true = Except.ok edaArtifacts := by
  refine ⟨rfl, by decide, rfl⟩

/-- Claim C9: a zero-row input table passes through the whole cleaning
pipeline unchanged: every step is total on it, no duplicate row is
removed, no column is dropped, no value is imputed, and the output has
zero rows in every column. -/
theorem clean_empty_table (t : Table) (h : ∀ c ∈ t.cols, c.cells = []) :
    clean t = t ∧ ∀ c ∈ (clean t).cols, c.cells = [] := by
  refine ⟨clean_empty h, ?_⟩
  rw [clean_empty h]
  exact h

/-- Witness for C9 at a two-column zero-row table. -/
theorem clean_empty_table_witness :
    (∀ c ∈ tEmpty.cols, c.cells = []) ∧ clean tEmpty = tEmpty :=
  ⟨by decide, (clean_empty_table tEmpty (by decide)).1⟩

/-- Claim C10: categorical imputation is deterministic under mode ties.
For cells with at least one present text value, the chosen fill value is
one of the values of greatest multiplicity and is the least such value in
the sorted order, hence the first tied value of the sorted mode series. -/
theorem mode_tie_break_min (cells : List Cell) (h : presentStrs cells ≠ []) :
    catFillValue cells ∈ modeCandidates cells ∧
      ∀ v ∈ modeCandidates cells, catFillValue cells ≤ v :=
  catFill_tie_min h

/-- Witness for C10 at a two-way tie, where the fill value is the
lexicographically smaller of the tied values. -/
theorem mode_tie_break_min_witness :
    presentStrs cellsTie ≠ [] ∧ catFillValue cellsTie = lit "a" ∧
      (catFillValue cellsTie ∈ modeCandidates cellsTie ∧
        ∀ v ∈ modeCandidates cellsTie, catFillValue cellsTie ≤ v) :=
  ⟨by decide, by decide, mode_tie_break_min cellsTie (by decide)⟩
